import Mathlib

/-
  Verification of the XmlRuntime native XML parsing module.

  The development shallowly embeds the two C++ source files:
  - `Voyager/src/main/cpp/xmlParser.cpp`: the streaming token emitter with its
    incremental SHA256 hasher and the chunked JNI parse driver (`parseXML`);
  - `app/src/main/cpp/xmlParser.cpp`: the depth-tracked XML-to-JSON tree builder
    (`convertXmlToJsonString`).

  Machine integers are modelled as `Nat` with explicit `% 2 ^ 32` / `% 2 ^ 64`
  where C unsigned arithmetic wraps.  Fallible code is modelled with `Option`.
-/

set_option maxHeartbeats 1000000
set_option maxRecDepth 4096

namespace Voyager

/-! ## SHA256 (class `SHA256` in Voyager/xmlParser.cpp, lines 54-213)

The C object holds `uint32_t state[8]`, `uint8_t data[64]`, `size_t datalen`
and `uint64_t bitlen`.  We keep the full 64-byte `data` buffer (not just the
first `datalen` bytes) because `final` writes padding into it and `parseXML`
reuses the thread-local object across invocations without resetting it.
`reset`/the constructor leave `data` uninitialized in C; it is modelled as
zeros, which is never observable: every byte of `data` that `transform` reads
has been written first (by `update` below `datalen`, by the padding in `final`
above it). -/

structure SHA256 where
  state : List Nat
  data : List Nat
  datalen : Nat
  bitlen : Nat
deriving DecidableEq, Repr

def rotr (x n : Nat) : Nat := ((x >>> n) ||| (x <<< (32 - n))) % 2 ^ 32

def choose (e f g : Nat) : Nat := (e &&& f) ^^^ ((e ^^^ 0xffffffff) &&& g)

def majority (a b c : Nat) : Nat := (a &&& (b ||| c)) ||| (b &&& c)

def ep0 (x : Nat) : Nat := rotr x 2 ^^^ rotr x 13 ^^^ rotr x 22

def ep1 (x : Nat) : Nat := rotr x 6 ^^^ rotr x 11 ^^^ rotr x 25

def sig0 (x : Nat) : Nat := rotr x 7 ^^^ rotr x 18 ^^^ (x >>> 3)

def sig1 (x : Nat) : Nat := rotr x 17 ^^^ rotr x 19 ^^^ (x >>> 10)

def kconst : List Nat :=
  [0x428a2f98, 0x71374491, 0xb5c0fbcf, 0xe9b5dba5] ++
    [0x3956c25b, 0x59f111f1, 0x923f82a4, 0xab1c5ed5] ++
    [0xd807aa98, 0x12835b01, 0x243185be, 0x550c7dc3] ++
    [0x72be5d74, 0x80deb1fe, 0x9bdc06a7, 0xc19bf174] ++
    [0xe49b69c1, 0xefbe4786, 0x0fc19dc6, 0x240ca1cc] ++
    [0x2de92c6f, 0x4a7484aa, 0x5cb0a9dc, 0x76f988da] ++
    [0x983e5152, 0xa831c66d, 0xb00327c8, 0xbf597fc7] ++
    [0xc6e00bf3, 0xd5a79147, 0x06ca6351, 0x14292967] ++
    [0x27b70a85, 0x2e1b2138, 0x4d2c6dfc, 0x53380d13] ++
    [0x650a7354, 0x766a0abb, 0x81c2c92e, 0x92722c85] ++
    [0xa2bfe8a1, 0xa81a664b, 0xc24b8b70, 0xc76c51a3] ++
    [0xd192e819, 0xd6990624, 0xf40e3585, 0x106aa070] ++
    [0x19a4c116, 0x1e376c08, 0x2748774c, 0x34b0bcb5] ++
    [0x391c0cb3, 0x4ed8aa4a, 0x5b9cca4f, 0x682e6ff3] ++
    [0x748f82ee, 0x78a5636f, 0x84c87814, 0x8cc70208] ++
    [0x90befffa, 0xa4506ceb, 0xbef9a3f7, 0xc67178f2]

/-- The message schedule `m[0..63]` of `SHA256::transform`: the first 16 words
are the 64 data bytes packed big-endian, the remaining 48 follow the
`sig1(m[i-2]) + m[i-7] + sig0(m[i-15]) + m[i-16]` recurrence (uint32 wrap). -/
def schedule (data : List Nat) : List Nat :=
  let m0 := (List.range 16).map fun i =>
    ((data.getD (4 * i) 0) <<< 24) ||| ((data.getD (4 * i + 1) 0) <<< 16) |||
      ((data.getD (4 * i + 2) 0) <<< 8) ||| data.getD (4 * i + 3) 0
  (List.range 48).foldl
    (fun m _ =>
      m ++ [(sig1 (m.getD (m.length - 2) 0) + m.getD (m.length - 7) 0 +
             sig0 (m.getD (m.length - 15) 0) + m.getD (m.length - 16) 0) % 2 ^ 32])
    m0

/-- One round of the 64-round compression loop of `SHA256::transform`,
acting on the registers `(a, b, c, d, e, f, g, h)`. -/
def roundStep (m : List Nat) (regs : Nat × Nat × Nat × Nat × Nat × Nat × Nat × Nat)
    (i : Nat) : Nat × Nat × Nat × Nat × Nat × Nat × Nat × Nat :=
  match regs with
  | (a, b, c, d, e, f, g, h) =>
    let t1 := (h + ep1 e + choose e f g + kconst.getD i 0 + m.getD i 0) % 2 ^ 32
    let t2 := (ep0 a + majority a b c) % 2 ^ 32
    ((t1 + t2) % 2 ^ 32, a, b, c, (d + t1) % 2 ^ 32, e, f, g)

/-- `SHA256::transform`: compresses the 64-byte block `data` into `st`. -/
def transform (st : List Nat) (data : List Nat) : List Nat :=
  let m := schedule data
  let start := (st.getD 0 0, st.getD 1 0, st.getD 2 0, st.getD 3 0,
                st.getD 4 0, st.getD 5 0, st.getD 6 0, st.getD 7 0)
  match (List.range 64).foldl (roundStep m) start with
  | (a, b, c, d, e, f, g, h) =>
    [(st.getD 0 0 + a) % 2 ^ 32, (st.getD 1 0 + b) % 2 ^ 32,
     (st.getD 2 0 + c) % 2 ^ 32, (st.getD 3 0 + d) % 2 ^ 32,
     (st.getD 4 0 + e) % 2 ^ 32, (st.getD 5 0 + f) % 2 ^ 32,
     (st.getD 6 0 + g) % 2 ^ 32, (st.getD 7 0 + h) % 2 ^ 32]

/-- The body of the `for` loop of `SHA256::update` for a single input byte:
store it at `data[datalen]`, and on the 64th byte compress the block. -/
def updateByte (s : SHA256) (b : Nat) : SHA256 :=
  let d := s.data.set s.datalen (b % 256)
  let dl := s.datalen + 1
  if dl = 64 then
    { state := transform s.state d, data := d, datalen := 0,
      bitlen := (s.bitlen + 512) % 2 ^ 64 }
  else
    { s with data := d, datalen := dl }

/-- `SHA256::update`: feeds the bytes of one chunk, one at a time. -/
def update (s : SHA256) (bs : List Nat) : SHA256 := bs.foldl updateByte s

/-- `SHA256::reset` / the constructor. -/
def shaInit : SHA256 :=
  { state := [0x6a09e667, 0xbb67ae85, 0x3c6ef372, 0xa54ff53a] ++
      [0x510e527f, 0x9b05688c, 0x1f83d9ab, 0x5be0cd19],
    data := List.replicate 64 0, datalen := 0, bitlen := 0 }

/-- The eight `uint8_t` stores `data[63] = bitlen; data[62] = bitlen >> 8; ...`
of `SHA256::final` (assignment to `uint8_t` truncates mod 256). -/
def writeLen (d : List Nat) (bl : Nat) : List Nat :=
  d.set 63 (bl % 256) |>.set 62 ((bl >>> 8) % 256) |>.set 61 ((bl >>> 16) % 256)
    |>.set 60 ((bl >>> 24) % 256) |>.set 59 ((bl >>> 32) % 256)
    |>.set 58 ((bl >>> 40) % 256) |>.set 57 ((bl >>> 48) % 256)
    |>.set 56 ((bl >>> 56) % 256)

/-- The four bytes `state[j] >> (24 - i*8) & 0xff`, `i = 0..3`, that
`SHA256::final` stores at `hash[4*j + i]`. -/
def wordBytes (w : Nat) : List Nat := (List.range 4).map fun i => (w >>> (24 - 8 * i)) &&& 0xff

/-- The 32 output bytes of `SHA256::final`: position `4*j + i` holds
`state[j] >> (24 - i*8) & 0xff`. -/
def digestBytes (st : List Nat) : List Nat :=
  wordBytes (st.getD 0 0) ++ wordBytes (st.getD 1 0) ++ wordBytes (st.getD 2 0) ++
    wordBytes (st.getD 3 0) ++ wordBytes (st.getD 4 0) ++ wordBytes (st.getD 5 0) ++
    wordBytes (st.getD 6 0) ++ wordBytes (st.getD 7 0)

/-- `SHA256::final`.  It mutates the object (pads `data`, grows `bitlen`,
advances `state`) and leaves `datalen` unchanged; the mutated object is
returned alongside the digest because `parseXML` reuses the thread-local
hasher across invocations. -/
def final (s : SHA256) : SHA256 × List Nat :=
  let pd : List Nat × List Nat :=
    if s.datalen < 56 then
      (s.state,
       s.data.take s.datalen ++ [0x80] ++ List.replicate (55 - s.datalen) 0 ++ s.data.drop 56)
    else
      let dpad := s.data.take s.datalen ++ [0x80] ++ List.replicate (63 - s.datalen) 0
      (transform s.state dpad, List.replicate 56 0 ++ dpad.drop 56)
  let bl := (s.bitlen + s.datalen * 8) % 2 ^ 64
  let d3 := writeLen pd.2 bl
  let st2 := transform pd.1 d3
  ({ state := st2, data := d3, datalen := s.datalen, bitlen := bl }, digestBytes st2)

/-- Digest of a byte stream delivered as a list of chunks: each chunk is fed
to `SHA256::update`, then `SHA256::final` is called once. -/
def digestOfChunks (chunks : List (List Nat)) : List Nat :=
  (final (chunks.foldl update shaInit)).2

theorem update_append (s : SHA256) (a b : List Nat) :
    update s (a ++ b) = update (update s a) b := by
  simp [update, List.foldl_append]

theorem foldl_update_eq_update_flatten (chunks : List (List Nat)) :
    ∀ s : SHA256, chunks.foldl update s = update s chunks.flatten := by
  induction chunks with
  | nil => intro s; simp [update]
  | cons c cs ih => intro s; simp [List.flatten, ih, update_append]

theorem digestBytes_length (st : List Nat) : (digestBytes st).length = 32 := by
  simp [digestBytes, wordBytes]

end Voyager

/-- C2: feeding a byte sequence to the incremental hasher as any list of
consecutive chunks and then finalizing yields the same 32-byte digest as
feeding the concatenation as a single chunk: the digest does not depend on
chunk-boundary placement. -/
theorem c2_digest_rechunking (chunks : List (List Nat)) :
    Voyager.digestOfChunks chunks = Voyager.digestOfChunks [chunks.flatten] ∧
      (Voyager.digestOfChunks chunks).length = 32 := by
  constructor
  · unfold Voyager.digestOfChunks
    rw [Voyager.foldl_update_eq_update_flatten]
    simp [Voyager.update]
  · unfold Voyager.digestOfChunks
    exact Voyager.digestBytes_length _

namespace Voyager

/-! ## The chunked parse driver `Java_com_voyager_core_data_utils_FileHelper_parseXML`
(Voyager/xmlParser.cpp, lines 347-464)

The expat parser is external; it is abstracted as a parser state `P` with a
chunk-parse oracle `pstep` (modelling `XML_Parse(parser, buf, n, 0)`, where
`none` is `XML_STATUS_ERROR`) and a finalize oracle `pfinal` (modelling
`XML_Parse(parser, buf, 0, 1)`).  The driver's own control flow — the hash
update before each parse call, the treatment of negative and zero-length
reads, the finalize sequence and the `onComplete` delivery — is taken from the
source. -/

inductive ReadResult where
  | err
  | eof
  | chunk (bs : List Nat)
deriving DecidableEq, Repr

/-- The read loop `while (!done)`.  Returns the hasher state together with
`some p` when the loop exits to the finalize section — via `done = true` on a
zero-length read, or via `break` on a negative read — and `none` when a chunk
parse error jumps to `cleanup`.  A negative read only leaves the loop: control
then continues at the finalize section, exactly as `break` does in the
source. -/
def readLoop {P : Type} (pstep : P → List Nat → Option P) :
    P → SHA256 → List ReadResult → SHA256 × Option P
  | p, sha, [] => (sha, some p)
  | p, sha, ReadResult.err :: _ => (sha, some p)
  | p, sha, ReadResult.eof :: _ => (sha, some p)
  | p, sha, ReadResult.chunk bs :: rest =>
    let sha' := update sha bs
    match pstep p bs with
    | none => (sha', none)
    | some p' => readLoop pstep p' sha' rest

/-- `parseXML`: drives the read loop, then performs the final
`XML_Parse(parser, buf, 0, 1)`, finalizes the hash and calls `onComplete`
with the digest.  It receives the incoming thread-local `g_state.sha256`
unreset (the function performs no per-invocation reset) and returns the
hasher state it leaves behind together with the digest passed to
`onComplete`, if any. -/
def parseXML {P : Type} (pstep : P → List Nat → Option P) (pfinal : P → Option P)
    (p0 : P) (sha0 : SHA256) (reads : List ReadResult) : SHA256 × Option (List Nat) :=
  match readLoop pstep p0 sha0 reads with
  | (sha, none) => (sha, none)
  | (sha, some p) =>
    match pfinal p with
    | none => (sha, none)
    | some _ =>
      let fin := final sha
      (fin.1, some fin.2)

/-- A parser oracle that accepts every chunk: models expat on input whose
parse succeeds (such as the complete well-formed document `<a/>`). -/
def acceptStep : Unit → List Nat → Option Unit := fun _ _ => some ()

/-- A finalize oracle that succeeds: models `XML_Parse(parser, buf, 0, 1)`
returning success, as it does once a complete document has been parsed. -/
def acceptFinal : Unit → Option Unit := fun _ => some ()

/-- The bytes of the well-formed document `<a/>`. -/
def aBytes : List Nat := [0x3c, 0x61, 0x2f, 0x3e]

/-- First invocation of `parseXML` on a fresh thread (constructor-initialized
hasher), reading the whole of `<a/>` in one chunk, then end-of-input. -/
def firstRun : SHA256 × Option (List Nat) :=
  parseXML acceptStep acceptFinal () shaInit [ReadResult.chunk aBytes, ReadResult.eof]

/-- The identical invocation issued next on the same thread: it starts from
the thread-local hasher state the first invocation left behind, because the
code never resets `g_state.sha256` between invocations. -/
def secondRun : SHA256 × Option (List Nat) :=
  parseXML acceptStep acceptFinal () firstRun.1 [ReadResult.chunk aBytes, ReadResult.eof]

end Voyager

/-- C3 (code bug): a run of the chunked parse driver in which the read after a
complete well-formed chunk returns a negative value does not abort: the hash
is finalized and the completion digest is delivered to the sink, because
`break` only leaves the read loop and control falls through to the finalize
section.  The delivered digest equals the digest of the bytes read so far. -/
theorem c3_negative_read_still_completes :
    (Voyager.parseXML Voyager.acceptStep Voyager.acceptFinal () Voyager.shaInit
        [Voyager.ReadResult.chunk Voyager.aBytes, Voyager.ReadResult.err]).2 =
      some (Voyager.digestOfChunks [Voyager.aBytes]) := by rfl

/-- C4 (code bug): the second of two successive parse invocations on the same
thread, started from the thread-local hasher state the first left behind,
delivers a different digest than the same invocation started from the initial
state (which is exactly `firstRun`): `g_state` is `thread_local` and is never
reset per invocation, and `SHA256::final` mutates the hasher in place. -/
theorem c4_thread_local_state_not_fresh :
    Voyager.secondRun.2 ≠ Voyager.firstRun.2 := by decide

/-! ## SAX events

Both native files register expat element handlers; the Voyager variant also
registers a character-data handler.  An expat event stream is modelled as a
list of these events. -/

inductive XEvent where
  | startE (name : String) (attrs : List (String × String))
  | endE (name : String)
  | chars (s : String)
deriving DecidableEq, Repr

namespace Voyager

/-! ## Attribute normalization and the token emitter
(Voyager/xmlParser.cpp, lines 236-345) -/

/-- The pointer loop of `createAttributeMap`:
`while (*key && *key != ':') key++; if (*key) key++;`.
The pointer is advanced to just past the first colon; when the key contains no
colon it stops at the terminating NUL, and since the pointer to the start of
the key is not kept, the key used is then the empty string. -/
def keyAfterColon : List Char → List Char
  | [] => []
  | c :: cs => if c = ':' then cs else keyAfterColon cs

/-- The normalized key actually passed to `ArrayMap.put`. -/
def normKey (k : String) : String := String.mk (keyAfterColon k.toList)

/-- Value semantics of `androidx.collection.ArrayMap.put`: replace the value
of an existing key, otherwise add the pair. -/
def mapPut (m : List (String × String)) (k v : String) : List (String × String) :=
  if m.any fun p => p.1 == k then
    m.map fun p => if p.1 == k then (k, v) else p
  else m ++ [(k, v)]

/-- `createAttributeMap`: one `put(normalizedKey, value)` per attribute pair,
in source order. -/
def createAttributeMap (attrs : List (String × String)) : List (String × String) :=
  attrs.foldl (fun m p => mapPut m (normKey p.1) p.2) []

/-- Value stored in the map under a key. -/
def mapLookup (m : List (String × String)) (k : String) : Option String :=
  (m.find? fun p => p.1 == k).map Prod.snd

/-- Tokens delivered to the `XmlTokenStream` sink
(`XmlToken.StartElement/EndElement/Text`). -/
inductive XmlToken where
  | startElement (name : String) (attrs : List (String × String))
  | endElement (name : String)
  | text (content : String)
deriving DecidableEq, Repr

/-- `createTextToken`: delivers one `Text` token unless the string is empty
(`if (text.empty()) return;`). -/
def createTextToken (text : String) (out : List XmlToken) : List XmlToken :=
  if text = "" then out else out ++ [XmlToken.text text]

/-- One expat callback of the token emitter.  The state is the accumulated
`g_state.currentText` together with the tokens delivered so far.  The
`startElement`/`endElement` handlers first flush any accumulated text, then
deliver their own token; `characterData` appends to the accumulator. -/
def emitStep (st : String × List XmlToken) : XEvent → String × List XmlToken
  | XEvent.startE n a =>
    ("", createTextToken st.1 st.2 ++ [XmlToken.startElement n (createAttributeMap a)])
  | XEvent.endE n =>
    ("", createTextToken st.1 st.2 ++ [XmlToken.endElement n])
  | XEvent.chars s => (st.1 ++ s, st.2)

/-- The emitter run over an event stream, starting from an empty accumulator
and no delivered tokens. -/
def emitRun (evs : List XEvent) : String × List XmlToken :=
  evs.foldl emitStep ("", [])

def emitToks (evs : List XEvent) : List XmlToken := (emitRun evs).2

/-- `true` iff no `Text` token in the list has empty content. -/
def noEmptyText (toks : List XmlToken) : Bool :=
  toks.all fun t =>
    match t with
    | XmlToken.text s => decide (s ≠ "")
    | _ => true

end Voyager

/-- Reference emitter following the spec's words (§4.2): consecutive
character-data events are concatenated into one pending buffer `acc`; the
buffer is flushed as one `Text` token immediately before any
`StartElement`/`EndElement` token, and once at end of document if non-empty;
an empty buffer produces no token. -/
def specFlush (acc : String) : List Voyager.XmlToken :=
  if acc = "" then [] else [Voyager.XmlToken.text acc]

def specEmitAux (acc : String) : List XEvent → List Voyager.XmlToken
  | [] => specFlush acc
  | XEvent.chars s :: es => specEmitAux (acc ++ s) es
  | XEvent.startE n a :: es =>
    specFlush acc ++
      Voyager.XmlToken.startElement n (Voyager.createAttributeMap a) :: specEmitAux "" es
  | XEvent.endE n :: es =>
    specFlush acc ++ Voyager.XmlToken.endElement n :: specEmitAux "" es

def specEmit (evs : List XEvent) : List Voyager.XmlToken := specEmitAux "" evs

namespace Voyager

theorem createTextToken_eq (acc : String) (out : List XmlToken) :
    createTextToken acc out = out ++ specFlush acc := by
  by_cases h : acc = "" <;> simp [createTextToken, specFlush, h]

/-- The emitter agrees with the spec-worded reference up to the text still
pending in the accumulator when the stream ends. -/
theorem emit_spec (evs : List XEvent) :
    ∀ (acc : String) (out : List XmlToken),
      (evs.foldl emitStep (acc, out)).2 ++ specFlush (evs.foldl emitStep (acc, out)).1 =
        out ++ specEmitAux acc evs := by
  induction evs with
  | nil => intro acc out; simp [specEmitAux]
  | cons e es ih =>
    intro acc out
    cases e with
    | startE n a =>
      simp only [List.foldl_cons, emitStep, specEmitAux, ih, createTextToken_eq]
      simp
    | endE n =>
      simp only [List.foldl_cons, emitStep, specEmitAux, ih, createTextToken_eq]
      simp
    | chars s =>
      simp only [List.foldl_cons, emitStep, specEmitAux, ih]

/-- After processing a stream whose last event is an end-element callback, the
text accumulator is empty. -/
theorem pending_after_endE (evs : List XEvent) (n : String) (acc : String)
    (out : List XmlToken) :
    ((evs ++ [XEvent.endE n]).foldl emitStep (acc, out)).1 = "" := by
  simp [List.foldl_append, emitStep]

theorem noEmptyText_append (a b : List XmlToken) :
    noEmptyText (a ++ b) = (noEmptyText a && noEmptyText b) := by
  simp [noEmptyText, List.all_append]

theorem noEmptyText_run (evs : List XEvent) :
    ∀ (acc : String) (out : List XmlToken), noEmptyText out = true →
      noEmptyText (evs.foldl emitStep (acc, out)).2 = true := by
  induction evs with
  | nil => intro acc out h; simpa using h
  | cons e es ih =>
    intro acc out h
    cases e with
    | startE n a =>
      simp only [List.foldl_cons, emitStep]
      refine ih "" _ ?_
      rw [createTextToken_eq, noEmptyText_append, noEmptyText_append, h]
      by_cases hne : acc = "" <;> simp [specFlush, noEmptyText, hne]
    | endE n =>
      simp only [List.foldl_cons, emitStep]
      refine ih "" _ ?_
      rw [createTextToken_eq, noEmptyText_append, noEmptyText_append, h]
      by_cases hne : acc = "" <;> simp [specFlush, noEmptyText, hne]
    | chars s => exact ih _ _ h

end Voyager

/-- C7: over any event stream that ends with a markup callback — every
delivered document stream does, since character data cannot follow the root's
end tag — the token emitter's output is exactly the spec's text-accumulation
behavior: consecutive character-data events are concatenated and flushed as
one `Text` token immediately before the next `StartElement`/`EndElement`
token (the end-of-document flush clause is vacuous: the buffer is empty
then), and no empty `Text` token is ever delivered. -/
theorem c7_text_accumulation (evs : List XEvent) (n : String) :
    Voyager.emitToks (evs ++ [XEvent.endE n]) = specEmit (evs ++ [XEvent.endE n]) ∧
      Voyager.noEmptyText (Voyager.emitToks (evs ++ [XEvent.endE n])) = true := by
  constructor
  · have h := Voyager.emit_spec (evs ++ [XEvent.endE n]) "" []
    rw [Voyager.pending_after_endE] at h
    simpa [Voyager.emitToks, Voyager.emitRun, specEmit, specFlush] using h
  · exact Voyager.noEmptyText_run _ "" [] rfl

namespace App

/-! ## The depth-tracked tree builder (app/src/main/cpp/xmlParser.cpp)

RapidJSON's `PrettyWriter` is modelled by the sequence of writer calls it
receives (`StartObject`, `Key`, `String`, `StartArray`, ...); rendering that
call trace to JSON text is RapidJSON's concern and out of scope.  The builder
state is the `g_childrenStarted` vector, the `g_depth` counter, and the call
trace.  An out-of-range `vector<bool>::operator[]` access — including the
`g_depth - 1` index of `endElement` when `g_depth == 0` — is undefined
behavior and is modelled as `none`. -/

inductive WEvent where
  | startObject
  | endObject
  | startArray
  | endArray
  | key (s : String)
  | str (s : String)
deriving DecidableEq, Repr

structure TState where
  childrenStarted : List Bool
  depth : Nat
  out : List WEvent
deriving DecidableEq, Repr

/-- The `attributes` object written by `startElement` when the element has at
least one attribute (`if (attributes && attributes[0])`): raw keys and values
in source order, no normalization. -/
def attrObject (attrs : List (String × String)) : List WEvent :=
  if attrs = [] then []
  else
    [WEvent.key "attributes", WEvent.startObject] ++
      (attrs.flatMap fun p => [WEvent.key p.1, WEvent.str p.2]) ++ [WEvent.endObject]

/-- The writer calls that open one element's object:
`StartObject; Key("type"); String(name);` then the attributes object. -/
def nodeHead (n : String) (attrs : List (String × String)) : List WEvent :=
  [WEvent.startObject, WEvent.key "type", WEvent.str n] ++ attrObject attrs

/-- `startElement` (lines 43-70): if the element has a parent whose
`children` array has not been started, emit `Key("children"); StartArray()`
and mark the parent's `g_childrenStarted[g_depth - 1]`; then write the node
head, push `false` for this element, and increment `g_depth`. -/
def startElement (st : TState) (n : String) (attrs : List (String × String)) :
    Option TState :=
  if st.depth = 0 then
    some { childrenStarted := st.childrenStarted ++ [false], depth := st.depth + 1,
           out := st.out ++ nodeHead n attrs }
  else
    match st.childrenStarted[st.depth - 1]? with
    | none => none
    | some true =>
      some { childrenStarted := st.childrenStarted ++ [false], depth := st.depth + 1,
             out := st.out ++ nodeHead n attrs }
    | some false =>
      some { childrenStarted := (st.childrenStarted.set (st.depth - 1) true) ++ [false],
             depth := st.depth + 1,
             out := (st.out ++ [WEvent.key "children", WEvent.startArray]) ++
               nodeHead n attrs }

/-- `endElement` (lines 77-84): close the `children` array if this element
started one, close the object, pop the vector, decrement `g_depth`. -/
def endElement (st : TState) : Option TState :=
  if st.depth = 0 then none
  else
    match st.childrenStarted[st.depth - 1]? with
    | none => none
    | some b =>
      some { childrenStarted := st.childrenStarted.dropLast, depth := st.depth - 1,
             out := st.out ++ (if b then [WEvent.endArray] else []) ++ [WEvent.endObject] }

/-- Event dispatch of the tree-mode parser: only the element handlers are
registered (`XML_SetElementHandler` and no character-data handler), so
character-data events do not reach the builder at all. -/
def treeStep (st : TState) (e : XEvent) : Option TState :=
  match e with
  | XEvent.startE n a => startElement st n a
  | XEvent.endE _ => endElement st
  | XEvent.chars _ => some st

def initT : TState := { childrenStarted := [], depth := 0, out := [] }

def treeFoldFrom (st : TState) (evs : List XEvent) : Option TState :=
  evs.foldlM treeStep st

def treeFold (evs : List XEvent) : Option TState := treeFoldFrom initT evs

def treeRun (evs : List XEvent) : Option (List WEvent) := (treeFold evs).map TState.out

/-- The environment of one `convertXmlToJsonString` call: whether
`XML_ParserCreate`, `open`, `fstat` and `mmap` succeed, and the outcome of
`XML_Parse(parser, mapped, fileSize, 1)` — `none` for `XML_STATUS_ERROR`,
`some evs` for success with the delivered event stream. -/
structure TreeEnv where
  parserCreated : Bool
  fileOpened : Bool
  fstatOk : Bool
  mmapOk : Bool
  parseOutcome : Option (List XEvent)
deriving DecidableEq, Repr

/-- `convertXmlToJsonString` (lines 91-148).  Each failure path — parser
creation failure, file open failure, `fstat` failure, `mmap` failure, parse
error — returns the empty string, modelled as `none`; on success the writer
trace accumulated by the callbacks is returned (`buffer.GetString()`). -/
def convertXmlToJsonString (env : TreeEnv) : Option (List WEvent) :=
  if !env.parserCreated then none
  else if !env.fileOpened then none
  else if !env.fstatOk then none
  else if !env.mmapOk then none
  else
    match env.parseOutcome with
    | none => none
    | some evs =>
      match treeFold evs with
      | none => none
      | some st => some st.out

end App

/-! ## Source documents and the spec-side tree grammar -/

/-- A well-formed XML element tree (text-free: character data is invisible to
the tree builder, which registers no character-data handler). -/
inductive XTree where
  | node (name : String) (attrs : List (String × String)) (children : List XTree)

def XTree.nameF : XTree → String
  | XTree.node n _ _ => n

def XTree.attrsF : XTree → List (String × String)
  | XTree.node _ a _ => a

def XTree.childrenF : XTree → List XTree
  | XTree.node _ _ c => c

mutual

/-- The expat event stream of a well-formed element: its start tag, the
streams of its children in order, its end tag. -/
def tevents : XTree → List XEvent
  | XTree.node n a cs => XEvent.startE n a :: (teventsList cs ++ [XEvent.endE n])

def teventsList : List XTree → List XEvent
  | [] => []
  | t :: ts => tevents t ++ teventsList ts

end

/-- The Tree Node grammar of spec §3: `type`, an `attributes` mapping that is
present only if the source element had at least one attribute, and a
`children` sequence that is present only if the source element had at least
one child element. -/
inductive JNode where
  | node (name : String) (attrs : Option (List (String × String)))
      (children : Option (List JNode))

def JNode.attrsF : JNode → Option (List (String × String))
  | JNode.node _ a _ => a

def JNode.childrenF : JNode → Option (List JNode)
  | JNode.node _ _ c => c

mutual

/-- The spec-side tree of a source element, following the words of spec §3:
the `attributes` field is present iff the element has at least one attribute,
the `children` field is present iff it has at least one child element. -/
def specTree : XTree → JNode
  | XTree.node n a cs =>
    JNode.node n (if a = [] then none else some a)
      (if cs.isEmpty then none else some (specTreeList cs))

def specTreeList : List XTree → List JNode
  | [] => []
  | t :: ts => specTree t :: specTreeList ts

end

mutual

/-- Serialization of a `JNode` as writer calls: absent fields write
nothing. -/
def writeJNode : JNode → List App.WEvent
  | JNode.node n a cs =>
    [App.WEvent.startObject, App.WEvent.key "type", App.WEvent.str n] ++
      (match a with
       | none => []
       | some al =>
         [App.WEvent.key "attributes", App.WEvent.startObject] ++
           (al.flatMap fun p => [App.WEvent.key p.1, App.WEvent.str p.2]) ++
           [App.WEvent.endObject]) ++
      (match cs with
       | none => []
       | some cl =>
         [App.WEvent.key "children", App.WEvent.startArray] ++ writeJNodeList cl ++
           [App.WEvent.endArray]) ++
      [App.WEvent.endObject]

def writeJNodeList : List JNode → List App.WEvent
  | [] => []
  | j :: js => writeJNode j ++ writeJNodeList js

end

/-- The writer trace the spec expects for one source element. -/
def serialize (t : XTree) : List App.WEvent := writeJNode (specTree t)

def serializeList (ts : List XTree) : List App.WEvent := writeJNodeList (specTreeList ts)

namespace App

theorem set_concat {α : Type} (l : List α) (b c : α) :
    (l ++ [b]).set l.length c = l ++ [c] := by
  induction l with
  | nil => rfl
  | cons x xs ih => simp [List.set_cons_succ, ih]

theorem treeFoldFrom_nil (st : TState) : treeFoldFrom st [] = some st := rfl

theorem treeFoldFrom_cons (st : TState) (e : XEvent) (evs : List XEvent) :
    treeFoldFrom st (e :: evs) = (treeStep st e).bind fun s => treeFoldFrom s evs := by
  simp [treeFoldFrom, List.foldlM_cons]

theorem treeFoldFrom_append (st : TState) (l1 l2 : List XEvent) :
    treeFoldFrom st (l1 ++ l2) = (treeFoldFrom st l1).bind fun s => treeFoldFrom s l2 := by
  simp [treeFoldFrom, List.foldlM_append]

/-- The `Key("children"); StartArray()` pair that opens a parent's children
container. -/
def chHdr : List WEvent := [WEvent.key "children", WEvent.startArray]

theorem startElement_zero (o : List WEvent) (n : String) (a : List (String × String)) :
    startElement { childrenStarted := [], depth := 0, out := o } n a =
      some { childrenStarted := [] ++ [false], depth := ([] : List Bool).length + 1,
             out := o ++ nodeHead n a } := by
  simp [startElement]

theorem startElement_concat (L : List Bool) (b : Bool) (o : List WEvent) (n : String)
    (a : List (String × String)) :
    startElement { childrenStarted := L ++ [b], depth := L.length + 1, out := o } n a =
      some { childrenStarted := (L ++ [true]) ++ [false], depth := (L ++ [true]).length + 1,
             out := (o ++ (if b then [] else chHdr)) ++ nodeHead n a } := by
  cases b <;>
    simp [startElement, List.getElem?_concat_length, set_concat, chHdr]

theorem endElement_concat (L : List Bool) (b : Bool) (o : List WEvent) :
    endElement { childrenStarted := L ++ [b], depth := L.length + 1, out := o } =
      some { childrenStarted := L, depth := L.length,
             out := o ++ ((if b then [WEvent.endArray] else []) ++ [WEvent.endObject]) } := by
  cases b <;>
    simp [endElement, List.getElem?_concat_length, List.dropLast_concat]

end App

theorem serializeList_nil : serializeList [] = [] := rfl

theorem serializeList_cons (t : XTree) (ts : List XTree) :
    serializeList (t :: ts) = serialize t ++ serializeList ts := by
  simp [serializeList, specTreeList, writeJNodeList, serialize]

theorem serialize_node (n : String) (a : List (String × String)) (cs : List XTree) :
    serialize (XTree.node n a cs) =
      App.nodeHead n a ++
        ((if cs.isEmpty then [] else
            App.chHdr ++ serializeList cs ++ [App.WEvent.endArray]) ++
          [App.WEvent.endObject]) := by
  cases cs <;> by_cases ha : a = [] <;>
    simp [serialize, serializeList, specTree, writeJNode, App.nodeHead, App.attrObject,
      App.chHdr, ha]

mutual

/-- Processing a well-formed element's event stream as the next child of an
open parent: the parent's stack entry ends `true`, the children header is
emitted first when the entry was still `false`, and the writer receives
exactly the spec serialization of the element. -/
theorem fold_tevents : ∀ (t : XTree) (L : List Bool) (b : Bool) (o : List App.WEvent),
    App.treeFoldFrom { childrenStarted := L ++ [b], depth := L.length + 1, out := o }
        (tevents t) =
      some { childrenStarted := L ++ [true], depth := L.length + 1,
             out := (o ++ (if b then [] else App.chHdr)) ++ serialize t }
  | XTree.node n a cs, L, b, o => by
    have h2 := fold_teventsList cs (L ++ [true]) false
      ((o ++ (if b then [] else App.chHdr)) ++ App.nodeHead n a)
    rw [show tevents (XTree.node n a cs) =
          XEvent.startE n a :: (teventsList cs ++ [XEvent.endE n]) from rfl,
        App.treeFoldFrom_cons]
    simp only [App.treeStep, App.startElement_concat, Option.bind_some, Option.some_bind]
    rw [App.treeFoldFrom_append, h2]
    simp only [Bool.false_or, Option.bind_some, Option.some_bind, App.treeFoldFrom_cons,
      App.treeStep, App.endElement_concat, serialize_node]
    by_cases hcs : cs.isEmpty
    · rw [List.isEmpty_iff.mp hcs]
      simp [serializeList_nil, List.append_assoc, App.treeFoldFrom_nil]
    · simp [hcs, List.append_assoc, App.treeFoldFrom_nil]

/-- Processing the concatenated event streams of a list of sibling elements. -/
theorem fold_teventsList : ∀ (ts : List XTree) (L : List Bool) (b : Bool) (o : List App.WEvent),
    App.treeFoldFrom { childrenStarted := L ++ [b], depth := L.length + 1, out := o }
        (teventsList ts) =
      some { childrenStarted := L ++ [b || !ts.isEmpty], depth := L.length + 1,
             out := (o ++ (if b || ts.isEmpty then [] else App.chHdr)) ++ serializeList ts }
  | [], L, b, o => by
    simp [teventsList, App.treeFoldFrom_nil, serializeList_nil]
  | t :: ts, L, b, o => by
    have h1 := fold_tevents t L b o
    have h2 := fold_teventsList ts L true ((o ++ (if b then [] else App.chHdr)) ++ serialize t)
    rw [show teventsList (t :: ts) = tevents t ++ teventsList ts from rfl,
        App.treeFoldFrom_append, h1]
    simp only [Option.some_bind, h2, Bool.true_or, Bool.or_true, List.isEmpty_cons,
      serializeList_cons]
    simp [List.append_assoc]

end

/-- Processing a complete well-formed document from the clean builder state:
the run succeeds, ends at depth 0 with an empty stack, and the writer trace
is exactly the spec serialization. -/
theorem fold_tevents_root (t : XTree) (o : List App.WEvent) :
    App.treeFoldFrom { childrenStarted := [], depth := 0, out := o } (tevents t) =
      some { childrenStarted := [], depth := 0, out := o ++ serialize t } := by
  cases t with
  | node n a cs =>
    have h2 := fold_teventsList cs [] false (o ++ App.nodeHead n a)
    rw [show tevents (XTree.node n a cs) =
          XEvent.startE n a :: (teventsList cs ++ [XEvent.endE n]) from rfl,
        App.treeFoldFrom_cons]
    simp only [App.treeStep, App.startElement_zero, Option.some_bind]
    rw [App.treeFoldFrom_append]
    simp only [List.nil_append, List.length_nil, Nat.zero_add] at h2 ⊢
    rw [h2]
    simp only [Bool.false_or, Option.some_bind, App.treeFoldFrom_cons, App.treeStep]
    have h3 := App.endElement_concat [] (!cs.isEmpty)
      (((o ++ App.nodeHead n a) ++ (if cs.isEmpty then [] else App.chHdr)) ++ serializeList cs)
    simp only [List.nil_append, List.length_nil] at h3
    rw [h3]
    rw [serialize_node]
    by_cases hcs : cs.isEmpty
    · rw [List.isEmpty_iff.mp hcs]
      simp [serializeList_nil, List.append_assoc, App.treeFoldFrom_nil]
    · simp [hcs, List.append_assoc, App.treeFoldFrom_nil]

theorem treeRun_tevents (t : XTree) :
    App.treeRun (tevents t) = some (writeJNode (specTree t)) := by
  have h := fold_tevents_root t []
  simp only [App.treeRun, App.treeFold, App.initT]
  rw [h]
  simp [serialize]

theorem specTree_childrenF (s : XTree) :
    (specTree s).childrenF.isSome ↔ s.childrenF ≠ [] := by
  cases s with
  | node n a cs => cases cs <;> simp [specTree, JNode.childrenF, XTree.childrenF]

theorem specTree_attrsF (s : XTree) :
    (specTree s).attrsF.isSome ↔ s.attrsF ≠ [] := by
  cases s with
  | node n a cs =>
    by_cases ha : a = [] <;> simp [specTree, JNode.attrsF, XTree.attrsF, ha]

/-- C6: for every well-formed input tree, the tree builder produces exactly
the spec-side serialization of the document, in which a node carries a
`children` field iff its source element had at least one child element and an
`attributes` field iff its source element had at least one attribute. -/
theorem c6_children_attributes_presence (t : XTree) :
    App.treeRun (tevents t) = some (writeJNode (specTree t)) ∧
      ∀ s : XTree, ((specTree s).childrenF.isSome ↔ s.childrenF ≠ []) ∧
        ((specTree s).attrsF.isSome ↔ s.attrsF ≠ []) :=
  ⟨treeRun_tevents t, fun s => ⟨specTree_childrenF s, specTree_attrsF s⟩⟩

namespace App

/-- Whenever `startElement` succeeds, it pushes exactly one stack entry and
increments the depth by one (marking the parent's entry preserves length). -/
theorem startElement_some (st : TState) (n : String) (a : List (String × String))
    (st' : TState) (h : startElement st n a = some st') :
    st'.childrenStarted.length = st.childrenStarted.length + 1 ∧
      st'.depth = st.depth + 1 := by
  unfold startElement at h
  by_cases hd : st.depth = 0
  · simp only [hd, if_pos rfl] at h
    cases h
    simp [hd]
  · simp only [if_neg hd] at h
    cases hm : st.childrenStarted[st.depth - 1]? with
    | none => rw [hm] at h; cases h
    | some b =>
      rw [hm] at h
      cases b <;> simp at h <;> cases h <;> simp

/-- Whenever `endElement` succeeds, the depth was non-zero and it pops
exactly one stack entry and decrements the depth by one. -/
theorem endElement_some (st st' : TState) (h : endElement st = some st') :
    st'.childrenStarted.length = st.childrenStarted.length - 1 ∧
      st'.depth = st.depth - 1 ∧ st.depth ≠ 0 := by
  unfold endElement at h
  by_cases hd : st.depth = 0
  · simp [hd] at h
  · simp only [if_neg hd] at h
    cases hm : st.childrenStarted[st.depth - 1]? with
    | none => rw [hm] at h; cases h
    | some b =>
      rw [hm] at h
      cases h
      simp [List.length_dropLast, hd]

end App

def countStarts (evs : List XEvent) : Nat :=
  evs.countP fun e => match e with | XEvent.startE _ _ => true | _ => false

def countEnds (evs : List XEvent) : Nat :=
  evs.countP fun e => match e with | XEvent.endE _ => true | _ => false

/-- The builder's structural invariant: along every defined run, the
`g_childrenStarted` stack has exactly one entry per open element, and the
depth tracks starts minus ends. -/
theorem depth_stack_invariant (evs : List XEvent) :
    ∀ st st' : App.TState, st.childrenStarted.length = st.depth →
      App.treeFoldFrom st evs = some st' →
      st'.childrenStarted.length = st'.depth ∧
        st'.depth + countEnds evs = st.depth + countStarts evs := by
  induction evs with
  | nil =>
    intro st st' h hf
    rw [App.treeFoldFrom_nil, Option.some_inj] at hf
    subst hf
    simp [countStarts, countEnds, h]
  | cons e es ih =>
    intro st st' h hf
    rw [App.treeFoldFrom_cons] at hf
    cases hst1 : App.treeStep st e with
    | none => rw [hst1] at hf; cases hf
    | some st1 =>
      rw [hst1, Option.some_bind] at hf
      cases e with
      | startE n a =>
        obtain ⟨hlen, hdep⟩ := App.startElement_some st n a st1 hst1
        obtain ⟨h1, h2⟩ := ih st1 st' (by omega) hf
        refine ⟨h1, ?_⟩
        simp [countStarts, countEnds, List.countP_cons] at h2 ⊢
        omega
      | endE n =>
        obtain ⟨hlen, hdep, hne⟩ := App.endElement_some st st1 hst1
        obtain ⟨h1, h2⟩ := ih st1 st' (by omega) hf
        refine ⟨h1, ?_⟩
        simp [countStarts, countEnds, List.countP_cons] at h2 ⊢
        omega
      | chars s =>
        simp only [App.treeStep, Option.some_inj] at hst1
        subst hst1
        obtain ⟨h1, h2⟩ := ih _ st' h hf
        refine ⟨h1, ?_⟩
        simp [countStarts, countEnds, List.countP_cons] at h2 ⊢
        omega

/-- C5 counterexample: a run of the tree builder on the unbalanced stream
consisting of a single start tag reaches end of input at depth 1, yet the
operation does not fail: when the event parser reports success, the builder
performs no finalize-time depth check and the output is returned. -/
theorem c5_counterexample :
    (App.treeFold [XEvent.startE "a" []]).map App.TState.depth = some 1 ∧
      App.convertXmlToJsonString
          { parserCreated := true, fileOpened := true, fstatOk := true, mmapOk := true,
            parseOutcome := some [XEvent.startE "a" []] } =
        some [App.WEvent.startObject, App.WEvent.key "type", App.WEvent.str "a"] := by
  decide

/-- C5 amended: throughout any defined tree-builder run from the clean state,
the depth stack length equals the number of currently open elements (starts
minus ends); and for every balanced event stream — which the tokenizer's
well-formedness check guarantees whenever the parse succeeds — the depth at
end of input is exactly 0.  The builder itself performs no finalize-time
depth check: tolerating depth ≠ 0 is prevented only by the tokenizer. -/
theorem c5_amended :
    (∀ (evs : List XEvent) (st : App.TState), App.treeFold evs = some st →
        st.childrenStarted.length = st.depth ∧
          st.depth + countEnds evs = countStarts evs) ∧
      ∀ t : XTree, App.treeFold (tevents t) =
        some { childrenStarted := [], depth := 0, out := serialize t } := by
  constructor
  · intro evs st h
    have hi := depth_stack_invariant evs App.initT st (by rfl) h
    simpa [App.initT] using hi
  · intro t
    have hr := fold_tevents_root t []
    simpa [App.treeFold, App.initT] using hr

/-- The final builder state of the balanced run over `<a></a>`. -/
def wfRunState : App.TState :=
  { childrenStarted := [], depth := 0,
    out := [App.WEvent.startObject, App.WEvent.key "type", App.WEvent.str "a",
            App.WEvent.endObject] }

theorem c5_amended_witness :
    App.treeFold [XEvent.startE "a" [], XEvent.endE "a"] = some wfRunState ∧
      wfRunState.depth + countEnds [XEvent.startE "a" [], XEvent.endE "a"] =
        countStarts [XEvent.startE "a" [], XEvent.endE "a"] :=
  ⟨by decide,
   (c5_amended.1 [XEvent.startE "a" [], XEvent.endE "a"] wfRunState (by decide)).2⟩

/-- An environment whose memory map fails. -/
def mmapFailEnv : App.TreeEnv :=
  { parserCreated := true, fileOpened := true, fstatOk := true, mmapOk := false,
    parseOutcome := some [] }

/-- C9: on every failure of the tree-mode operation — parser creation
failure, file open failure, file-size query failure, memory-map failure, or
parse error — `convertXmlToJsonString` returns the empty/absent document,
never a partial tree. -/
theorem c9_failure_returns_empty (env : App.TreeEnv)
    (h : env.parserCreated = false ∨ env.fileOpened = false ∨ env.fstatOk = false ∨
         env.mmapOk = false ∨ env.parseOutcome = none) :
    App.convertXmlToJsonString env = none := by
  obtain ⟨pc, fo, fs, mm, po⟩ := env
  cases pc <;> cases fo <;> cases fs <;> cases mm <;>
    simp_all [App.convertXmlToJsonString]

theorem c9_witness :
    mmapFailEnv.mmapOk = false ∧ App.convertXmlToJsonString mmapFailEnv = none :=
  ⟨rfl, c9_failure_returns_empty mmapFailEnv (by decide)⟩

def isMarkup : XEvent → Bool
  | XEvent.chars _ => false
  | _ => true

/-- The raw attribute keys occurring in an event stream. -/
def attrKeys (evs : List XEvent) : List String :=
  evs.flatMap fun e =>
    match e with
    | XEvent.startE _ a => a.map Prod.fst
    | _ => []

/-- Character-data events are invisible to the tree builder: a run over any
event stream equals the run over the stream with all character data
removed. -/
theorem treeFoldFrom_filter (evs : List XEvent) :
    ∀ st : App.TState,
      App.treeFoldFrom st (evs.filter isMarkup) = App.treeFoldFrom st evs := by
  induction evs with
  | nil => intro st; rfl
  | cons e es ih =>
    intro st
    cases e with
    | startE n a =>
      simp only [List.filter_cons, isMarkup, App.treeFoldFrom_cons, if_pos]
      simp only [App.treeStep]
      cases App.startElement st n a <;> simp [ih]
    | endE n =>
      simp only [List.filter_cons, isMarkup, App.treeFoldFrom_cons, if_pos]
      simp only [App.treeStep]
      cases App.endElement st <;> simp [ih]
    | chars s =>
      simp only [List.filter_cons, isMarkup, App.treeFoldFrom_cons, App.treeStep,
        Option.some_bind]
      simp [ih]

theorem mem_key_attrObject (k : String) (a : List (String × String))
    (h : App.WEvent.key k ∈ App.attrObject a) :
    k = "attributes" ∨ k ∈ a.map Prod.fst := by
  by_cases ha : a = []
  · simp [App.attrObject, ha] at h
  · simp only [App.attrObject, if_neg ha] at h
    simp [List.mem_flatMap] at h
    rcases h with h | ⟨x, hx⟩
    · exact Or.inl h
    · exact Or.inr (List.mem_map.mpr ⟨(k, x), hx, rfl⟩)

theorem mem_key_nodeHead (k n : String) (a : List (String × String))
    (h : App.WEvent.key k ∈ App.nodeHead n a) :
    k = "type" ∨ k = "attributes" ∨ k ∈ a.map Prod.fst := by
  simp only [App.nodeHead, List.mem_append] at h
  rcases h with h | h
  · simp at h
    exact Or.inl h
  · rcases mem_key_attrObject k a h with h | h
    · exact Or.inr (Or.inl h)
    · exact Or.inr (Or.inr h)

/-- Every key a single builder step appends to the writer trace is `type`,
`attributes`, `children`, or a raw attribute key of the event. -/
theorem step_keys (st : App.TState) (e : XEvent) (st1 : App.TState)
    (h : App.treeStep st e = some st1) (k : String)
    (hk : App.WEvent.key k ∈ st1.out) :
    App.WEvent.key k ∈ st.out ∨ k = "type" ∨ k = "attributes" ∨ k = "children" ∨
      k ∈ attrKeys [e] := by
  cases e with
  | chars s =>
    simp only [App.treeStep, Option.some_inj] at h
    subst h
    exact Or.inl hk
  | endE n =>
    simp only [App.treeStep] at h
    unfold App.endElement at h
    split at h
    · cases h
    · split at h
      · cases h
      · rename_i b _
        cases h
        simp only [List.mem_append] at hk
        rcases hk with (hk | hk) | hk
        · exact Or.inl hk
        · cases b <;> simp at hk
        · simp at hk
  | startE n a =>
    simp only [App.treeStep] at h
    unfold App.startElement at h
    split at h
    · cases h
      simp only [List.mem_append] at hk
      rcases hk with hk | hk
      · exact Or.inl hk
      · rcases mem_key_nodeHead k n a hk with h | h | h
        · exact Or.inr (Or.inl h)
        · exact Or.inr (Or.inr (Or.inl h))
        · exact Or.inr (Or.inr (Or.inr (Or.inr (by simpa [attrKeys] using h))))
    · split at h
      · cases h
      · cases h
        simp only [List.mem_append] at hk
        rcases hk with hk | hk
        · exact Or.inl hk
        · rcases mem_key_nodeHead k n a hk with h | h | h
          · exact Or.inr (Or.inl h)
          · exact Or.inr (Or.inr (Or.inl h))
          · exact Or.inr (Or.inr (Or.inr (Or.inr (by simpa [attrKeys] using h))))
      · cases h
        simp only [List.mem_append] at hk
        rcases hk with (hk | hk) | hk
        · exact Or.inl hk
        · simp at hk
          exact Or.inr (Or.inr (Or.inr (Or.inl hk)))
        · rcases mem_key_nodeHead k n a hk with h | h | h
          · exact Or.inr (Or.inl h)
          · exact Or.inr (Or.inr (Or.inl h))
          · exact Or.inr (Or.inr (Or.inr (Or.inr (by simpa [attrKeys] using h))))

theorem run_keys (evs : List XEvent) :
    ∀ st st' : App.TState, App.treeFoldFrom st evs = some st' →
      ∀ k, App.WEvent.key k ∈ st'.out →
        App.WEvent.key k ∈ st.out ∨ k = "type" ∨ k = "attributes" ∨ k = "children" ∨
          k ∈ attrKeys evs := by
  induction evs with
  | nil =>
    intro st st' hf k hk
    rw [App.treeFoldFrom_nil, Option.some_inj] at hf
    subst hf
    exact Or.inl hk
  | cons e es ih =>
    intro st st' hf k hk
    rw [App.treeFoldFrom_cons] at hf
    cases hst1 : App.treeStep st e with
    | none => rw [hst1] at hf; cases hf
    | some st1 =>
      rw [hst1, Option.some_bind] at hf
      have hmem : k ∈ attrKeys [e] → k ∈ attrKeys (e :: es) := by
        intro hx
        simp only [attrKeys, List.flatMap_cons, List.mem_append] at hx ⊢
        simp at hx
        exact Or.inl hx
      have htail : k ∈ attrKeys es → k ∈ attrKeys (e :: es) := by
        intro hx
        simp only [attrKeys, List.flatMap_cons, List.mem_append] at hx ⊢
        exact Or.inr hx
      rcases ih st1 st' hf k hk with h | h | h | h | h
      · rcases step_keys st e st1 hst1 k h with h2 | h2 | h2 | h2 | h2
        · exact Or.inl h2
        · exact Or.inr (Or.inl h2)
        · exact Or.inr (Or.inr (Or.inl h2))
        · exact Or.inr (Or.inr (Or.inr (Or.inl h2)))
        · exact Or.inr (Or.inr (Or.inr (Or.inr (hmem h2))))
      · exact Or.inr (Or.inl h)
      · exact Or.inr (Or.inr (Or.inl h))
      · exact Or.inr (Or.inr (Or.inr (Or.inl h)))
      · exact Or.inr (Or.inr (Or.inr (Or.inr (htail h))))

/-- C10: tree mode discards all character data: the builder's run over any
event stream equals its run over the stream with all character data removed
(no character-data handler is registered), and every object key in the
produced output is `type`, `attributes`, `children`, or a raw attribute key
of the input — element text content never appears anywhere in the output. -/
theorem c10_tree_discards_text (evs : List XEvent) :
    App.treeFold (evs.filter isMarkup) = App.treeFold evs ∧
      ∀ k, App.WEvent.key k ∈ (App.treeRun evs).getD [] →
        k = "type" ∨ k = "attributes" ∨ k = "children" ∨ k ∈ attrKeys evs := by
  constructor
  · exact treeFoldFrom_filter evs App.initT
  · intro k hk
    cases hf : App.treeFold evs with
    | none => rw [App.treeRun, hf] at hk; simp at hk
    | some st' =>
      rw [App.treeRun, hf] at hk
      simp only [Option.map_some', Option.getD_some] at hk
      rcases run_keys evs App.initT st' hf k hk with h | h | h | h | h
      · simp [App.initT] at h
      · exact Or.inl h
      · exact Or.inr (Or.inl h)
      · exact Or.inr (Or.inr (Or.inl h))
      · exact Or.inr (Or.inr (Or.inr h))

theorem c10_witness :
    App.treeFold ([XEvent.startE "a" [("x", "1")], XEvent.chars "hi",
          XEvent.endE "a"].filter isMarkup) =
        App.treeFold [XEvent.startE "a" [("x", "1")], XEvent.chars "hi",
          XEvent.endE "a"] ∧
      ("x" = "type" ∨ "x" = "attributes" ∨ "x" = "children" ∨
        "x" ∈ attrKeys [XEvent.startE "a" [("x", "1")], XEvent.chars "hi",
          XEvent.endE "a"]) :=
  ⟨(c10_tree_discards_text _).1, (c10_tree_discards_text _).2 "x" (by decide)⟩

theorem keyAfterColon_no_colon (l : List Char) (h : l.contains ':' = false) :
    Voyager.keyAfterColon l = [] := by
  induction l with
  | nil => rfl
  | cons c cs ih =>
    simp only [List.contains_cons, Bool.or_eq_false_iff, beq_eq_false_iff_ne] at h
    have hc : ¬(c = ':') := fun hcc => h.1 hcc.symm
    simp [Voyager.keyAfterColon, hc, ih h.2]

/-- Reference normalization following the spec's words (§3): if the raw key
contains a colon, the key used is the substring after the first colon;
otherwise the raw key is used unchanged. -/
def specNormalizeKey (k : String) : String :=
  if k.toList.contains ':' then String.mk (Voyager.keyAfterColon k.toList) else k

/-- The object keys occurring in a writer-call trace. -/
def objKeys (ws : List App.WEvent) : List String :=
  ws.filterMap fun e =>
    match e with
    | App.WEvent.key s => some s
    | _ => none

theorem objKeys_pairs (attrs : List (String × String)) :
    objKeys (attrs.flatMap fun p => [App.WEvent.key p.1, App.WEvent.str p.2]) =
      attrs.map Prod.fst := by
  induction attrs with
  | nil => rfl
  | cons p ps ih =>
    simp only [objKeys] at ih ⊢
    simp [List.flatMap_cons, List.filterMap_append, ih]

theorem objKeys_append (a b : List App.WEvent) :
    objKeys (a ++ b) = objKeys a ++ objKeys b := by
  simp [objKeys, List.filterMap_append]

theorem objKeys_attrObject (attrs : List (String × String)) :
    objKeys (App.attrObject attrs) =
      if attrs.isEmpty then [] else "attributes" :: attrs.map Prod.fst := by
  cases attrs with
  | nil => rfl
  | cons p ps =>
    have h1 : App.attrObject (p :: ps) =
        [App.WEvent.key "attributes", App.WEvent.startObject] ++
          (((p :: ps).flatMap fun q => [App.WEvent.key q.1, App.WEvent.str q.2]) ++
            [App.WEvent.endObject]) := by
      simp [App.attrObject]
    rw [h1, objKeys_append, objKeys_append, objKeys_pairs]
    simp [objKeys]

/-- C1 counterexample: the tree builder writes the raw key `ns:id`, not the
claimed normalized key `id`; and the token emitter normalizes the colon-free
key `id` to the empty string, not to the claimed unchanged key `id`. -/
theorem c1_counterexample :
    App.treeRun [XEvent.startE "a" [("ns:id", "5")], XEvent.endE "a"] =
        some [App.WEvent.startObject, App.WEvent.key "type", App.WEvent.str "a",
              App.WEvent.key "attributes", App.WEvent.startObject,
              App.WEvent.key "ns:id", App.WEvent.str "5", App.WEvent.endObject,
              App.WEvent.endObject] ∧
      specNormalizeKey "ns:id" = "id" ∧
      Voyager.createAttributeMap [("id", "5")] = [("", "5")] ∧
      specNormalizeKey "id" = "id" := by
  decide

/-- C1 amended: in the token emitter, the key used is the substring after the
first colon when the raw key contains a colon, and the empty string
otherwise; the tree builder performs no normalization and writes every raw
attribute key unchanged, in source order. -/
theorem c1_amended :
    (∀ k : String, Voyager.normKey k =
        if k.toList.contains ':' then specNormalizeKey k else "") ∧
      ∀ attrs : List (String × String),
        objKeys (App.attrObject attrs) =
          if attrs.isEmpty then [] else "attributes" :: attrs.map Prod.fst := by
  constructor
  · intro k
    by_cases hc : k.toList.contains ':' = true
    · rw [if_pos hc]
      unfold specNormalizeKey
      rw [if_pos hc]
      rfl
    · rw [if_neg hc]
      rw [Bool.not_eq_true] at hc
      unfold Voyager.normKey
      rw [keyAfterColon_no_colon _ hc]
  · exact objKeys_attrObject

/-- C8 counterexample: on the tree builder, the attributes `a:id="1"` and
`b:id="2"` have colliding normalized keys, yet the later one does not
overwrite the earlier: both raw keys and both values appear in the output
object, the earlier value `"1"` included. -/
theorem c8_counterexample :
    Voyager.normKey "a:id" = Voyager.normKey "b:id" ∧
      App.attrObject [("a:id", "1"), ("b:id", "2")] =
        [App.WEvent.key "attributes", App.WEvent.startObject,
         App.WEvent.key "a:id", App.WEvent.str "1",
         App.WEvent.key "b:id", App.WEvent.str "2", App.WEvent.endObject] ∧
      App.WEvent.str "1" ∈ App.attrObject [("a:id", "1"), ("b:id", "2")] := by
  decide

/-- C8 amended: in the token emitter's attribute map the later of two
attributes with colliding normalized keys wins — `ArrayMap.put` overwrites
the value; the tree builder performs no normalization, so both attributes
appear in its output under their raw keys and no overwriting occurs. -/
theorem c8_last_attribute_wins (k1 k2 v1 v2 : String)
    (h : Voyager.normKey k1 = Voyager.normKey k2) :
    Voyager.createAttributeMap [(k1, v1), (k2, v2)] = [(Voyager.normKey k1, v2)] ∧
      objKeys (App.attrObject [(k1, v1), (k2, v2)]) = ["attributes", k1, k2] := by
  constructor
  · simp [Voyager.createAttributeMap, Voyager.mapPut, ← h]
  · simp [objKeys_attrObject]

theorem c8_last_attribute_wins_witness :
    Voyager.normKey "a:id" = Voyager.normKey "b:id" ∧
      Voyager.createAttributeMap [("a:id", "1"), ("b:id", "2")] =
        [(Voyager.normKey "a:id", "2")] ∧
      objKeys (App.attrObject [("a:id", "1"), ("b:id", "2")]) =
        ["attributes", "a:id", "b:id"] :=
  ⟨by decide, c8_last_attribute_wins "a:id" "b:id" "1" "2" (by decide)⟩
